import Mathlib

/-!
Shallow embedding of the type-level record operations of `src/lib/types/objects.ts`
(the `ts-types` library).  A TypeScript record type is modelled as an association
list from property-name keys to field bindings; a field binding carries the
`?` (optional) modifier, the `readonly` modifier, and the bound value type.
Two record types denote the same TypeScript type when they bind the same keys
to the same field bindings (key order is not significant), which we express
through `lookupF`-extensionality.

Conventions taken from the TypeScript semantics the library runs under:
`Pick` (used by `Merge` and `RemoveKeys`) is a homomorphic mapped type and so
preserves the `?`/`readonly` modifiers of the picked keys, while `Record`
(the `Obj` helper) always produces required, mutable bindings; the indexed
access `T[K]` on an optional property adds `| undefined` to the declared
value type (strict null checks).
-/

namespace TsTypes

/-- Atomic (non-composite) TypeScript types, as far as the record
transformations inspect them. -/
inductive Leaf where
  | str
  | num
  | undef
  | unknown
  | anyTy
  | never
deriving Repr, DecidableEq

/-- TypeScript value types: atomic leaves, binary unions, and record (object)
types.  A record is a list of `(key, optional?, readonly?, valueType)`
entries. -/
inductive Ty where
  | leaf (l : Leaf)
  | union (a b : Ty)
  | record (fs : List (String × Bool × Bool × Ty))
deriving Repr

/-- The `string` type. -/
abbrev Ty.str : Ty := Ty.leaf Leaf.str

/-- The `number` type. -/
abbrev Ty.num : Ty := Ty.leaf Leaf.num

/-- The `undefined` type. -/
abbrev Ty.undef : Ty := Ty.leaf Leaf.undef

/-- The `unknown` type. -/
abbrev Ty.unknown : Ty := Ty.leaf Leaf.unknown

/-- The `any` type. -/
abbrev Ty.anyTy : Ty := Ty.leaf Leaf.anyTy

/-- The `never` type. -/
abbrev Ty.never : Ty := Ty.leaf Leaf.never

mutual

/-- Decidable equality of types (hand-rolled: `deriving` does not handle the
nested occurrence of `Ty` under `List`). -/
def tyDecEq : (a b : Ty) → Decidable (a = b)
  | .leaf l1, .leaf l2 =>
    if h : l1 = l2 then isTrue (by rw [h])
    else isFalse (by intro he; cases he; exact h rfl)
  | .leaf _, .union _ _ => isFalse (by intro h; cases h)
  | .leaf _, .record _ => isFalse (by intro h; cases h)
  | .union _ _, .leaf _ => isFalse (by intro h; cases h)
  | .union a b, .union c d =>
    match tyDecEq a c, tyDecEq b d with
    | isTrue h1, isTrue h2 => isTrue (by rw [h1, h2])
    | isFalse h1, _ => isFalse (by intro h; cases h; exact h1 rfl)
    | _, isFalse h2 => isFalse (by intro h; cases h; exact h2 rfl)
  | .union _ _, .record _ => isFalse (by intro h; cases h)
  | .record _, .leaf _ => isFalse (by intro h; cases h)
  | .record _, .union _ _ => isFalse (by intro h; cases h)
  | .record fs, .record gs =>
    match fieldsDecEq fs gs with
    | isTrue h => isTrue (by rw [h])
    | isFalse h => isFalse (by intro he; cases he; exact h rfl)

/-- Decidable equality of record field lists. -/
def fieldsDecEq : (fs gs : List (String × Bool × Bool × Ty)) → Decidable (fs = gs)
  | [], [] => isTrue rfl
  | [], _ :: _ => isFalse (by intro h; cases h)
  | _ :: _, [] => isFalse (by intro h; cases h)
  | (k1, o1, r1, t1) :: fs, (k2, o2, r2, t2) :: gs =>
    match decEq k1 k2, decEq o1 o2, decEq r1 r2, tyDecEq t1 t2, fieldsDecEq fs gs with
    | isTrue h1, isTrue h2, isTrue h3, isTrue h4, isTrue h5 =>
      isTrue (by rw [h1, h2, h3, h4, h5])
    | isFalse h, _, _, _, _ => isFalse (by intro he; cases he; exact h rfl)
    | _, isFalse h, _, _, _ => isFalse (by intro he; cases he; exact h rfl)
    | _, _, isFalse h, _, _ => isFalse (by intro he; cases he; exact h rfl)
    | _, _, _, isFalse h, _ => isFalse (by intro he; cases he; exact h rfl)
    | _, _, _, _, isFalse h => isFalse (by intro he; cases he; exact h rfl)

end

instance : DecidableEq Ty := tyDecEq

instance : Inhabited Ty := ⟨Ty.leaf Leaf.never⟩

/-- A field binding: `(optional?, readonly?, value type)`. -/
abbrev FieldV := Bool × Bool × Ty

/-- A record type: association list from keys to field bindings. -/
abbrev Rec := List (String × FieldV)

/-- The keys of a record type (`keyof`), in declaration order. -/
def keysOf (r : Rec) : List String := r.map (·.1)

/-- Property lookup in a record type: the binding of the (first entry for the)
key, or `none` when the key is absent. -/
def lookupF (k : String) : Rec → Option FieldV
  | [] => none
  | (k', f) :: fs => if k = k' then some f else lookupF k fs

/-- Indexed access `T[K]` on a field binding: the declared value type, with
`| undefined` added when the property is optional (strict null checks). -/
def idxV (f : FieldV) : Ty := if f.1 then Ty.union f.2.2 Ty.undef else f.2.2

/-- Indexed access `T[K]` on a record type (`never` when the key is absent,
matching `T[never]`). -/
def idxAccess (r : Rec) (k : String) : Ty :=
  match lookupF k r with
  | some f => idxV f
  | none => Ty.never

/-- Union construction, step: add a member to a union member list unless an
identical member is already present (TypeScript deduplicates identical union
members). -/
def addMember (ts : List Ty) (t : Ty) : List Ty :=
  if t ∈ ts then ts else ts ++ [t]

/-- Union construction: deduplicated member list. -/
def unionMembers (ts : List Ty) : List Ty := ts.foldl addMember []

/-- Fold a nonempty member list into a union type. -/
def mkUnionCore : Ty → List Ty → Ty
  | t, [] => t
  | t, u :: us => Ty.union t (mkUnionCore u us)

/-- The union of a member list: `never` for the empty union, the member
itself for a singleton. -/
def mkUnion : List Ty → Ty
  | [] => Ty.never
  | t :: ts => mkUnionCore t ts

/-- `Obj<TValue, TKeys> = Record<TKeys, TValue>`: every key of the key set
bound to the value type, as a required, mutable binding. -/
def objT (v : Ty) (ks : List String) : Rec :=
  ks.map (fun k => (k, (false, false, v)))

/-- `ValueOf<TObj> = TObj[keyof TObj]`: the union of the types obtained by
indexed access at every key. -/
def valueOf (r : Rec) : Ty := mkUnion (unionMembers (r.map (fun f => idxV f.2)))

/-- `MapValues<TSrcObj, TMappedValue> = Obj<TMappedValue, keyof TSrcObj>`. -/
def mapValues (r : Rec) (v : Ty) : Rec := objT v (keysOf r)

/-- The assignability test `T extends Obj` (i.e. `T extends Record<any, any>`)
used by `DeepMapValues`: record (object) types are assignable, `never` is
assignable to everything, `any` is assignable to everything, a union is
assignable exactly when every member is, and primitives, `undefined` and
`unknown` are not assignable to an object type. -/
def extendsObj : Ty → Bool
  | .record _ => true
  | .leaf .never => true
  | .leaf .anyTy => true
  | .union a b => extendsObj a && extendsObj b
  | _ => false

mutual

/-- Does a type avoid `any` everywhere (through unions and record fields)?
`DeepMapValues<any, V>` is an infinite recursive object type with no finite
representation in this grammar, so the `DeepMapValues` theorems are scoped
to `any`-free value types, where the embedding is exact. -/
def tyNoAny : Ty → Bool
  | .leaf .anyTy => false
  | .leaf _ => true
  | .union a b => tyNoAny a && tyNoAny b
  | .record fs => fieldsNoAny fs

/-- Do all field value types of a record avoid `any`? -/
def fieldsNoAny : List (String × Bool × Bool × Ty) → Bool
  | [] => true
  | (_, _, _, t) :: rest => tyNoAny t && fieldsNoAny rest

end

mutual

/-- The value transformation of `DeepMapValues`: the conditional type
`TSrcObj[TKey] extends Obj ? DeepMapValues<TSrcObj[TKey], TMappedValue> : TMappedValue`
at a concrete (non-distributive) checked type.  A record value recurses; a
union all of whose members are assignable to `Obj` takes the true branch,
where the homomorphic mapped type distributes over the union (`deepMapRec`);
`never` is assignable to `Obj` and `DeepMapValues<never, V>` is `never`; for
a checked type of exactly `any` the conditional resolves to the union of both
branches, whose true branch `DeepMapValues<any, V>` (an infinite recursive
object type) has no finite representation in this grammar and is rendered as
`any` — the theorems below exclude `any`-containing value types, so nothing
is claimed about that rendering; every other value (primitives, `undefined`,
`unknown`, unions with a non-object member) fails the assignability test and
is replaced by `TMappedValue`. -/
def deepMapTy (t : Ty) (v : Ty) : Ty :=
  match t with
  | .leaf .anyTy => .union (.leaf .anyTy) v
  | .record fs => .record (deepMapValues fs v)
  | .union a b =>
    if extendsObj a && extendsObj b then .union (deepMapRec a v) (deepMapRec b v) else v
  | .leaf .never => .leaf .never
  | _ => v

/-- The true branch `DeepMapValues<T, TMappedValue>` for a `T` assignable to
`Obj`: the homomorphic mapped type distributes over unions (member by
member), maps a record's fields, and sends `never` (the empty union) to
`never`; other leaves cannot occur under the assignability guard and are
left unchanged. -/
def deepMapRec (t : Ty) (v : Ty) : Ty :=
  match t with
  | .record fs => .record (deepMapValues fs v)
  | .union a b => .union (deepMapRec a v) (deepMapRec b v)
  | t' => t'

/-- `DeepMapValues<TSrcObj, TMappedValue>`: the homomorphic mapped type
`{ [TKey in keyof TSrcObj]: TSrcObj[TKey] extends Obj ? DeepMapValues<...> : TMappedValue }`;
keys and their modifiers are preserved, value types go through `deepMapTy`. -/
def deepMapValues (fs : List (String × Bool × Bool × Ty)) (v : Ty) :
    List (String × Bool × Bool × Ty) :=
  match fs with
  | [] => []
  | (k, o, ro, t) :: rest => (k, o, ro, deepMapTy t v) :: deepMapValues rest v

end

/-- `Merge<TObj1, TObj2> = Pick<TObj1, Exclude<keyof TObj1, keyof TObj2>> & TObj2`:
the entries of the first record whose keys the second does not bind (with
their modifiers, since `Pick` is homomorphic), together with all entries of
the second record. -/
def merge (r1 r2 : Rec) : Rec :=
  r1.filter (fun f => !(decide (f.1 ∈ keysOf r2))) ++ r2

/-- `ReplaceValues<TSrcObj, TKeys, TNewValue> = Merge<TSrcObj, Obj<TNewValue, TKeys>>`. -/
def replaceValues (r : Rec) (ks : List String) (v : Ty) : Rec :=
  merge r (objT v ks)

/-- `RemoveKeys<TSrcObj, TKeysUnion> = Pick<TSrcObj, Exclude<keyof TSrcObj, TKeysUnion>>`. -/
def removeKeys (r : Rec) (ks : List String) : Rec :=
  r.filter (fun f => !(decide (f.1 ∈ ks)))

/-- `RenameKey<TObj, TPrevKey, TNewKey> = Merge<RemoveKeys<TObj, TPrevKey>, Obj<TObj[TPrevKey], TNewKey>>`. -/
def renameKey (r : Rec) (oldK newK : String) : Rec :=
  merge (removeKeys r [oldK]) (objT (idxAccess r oldK) [newK])

/-- Modelled from the spec: `CanBeUndef` (imported from `./logical`, a file
not in the repository snapshot) decides whether a value type admits
`undefined` as a possible value; by documented policy this includes
`unknown` and `any`. -/
def canBeUndef : Ty → Bool
  | .leaf .undef => true
  | .leaf .unknown => true
  | .leaf .anyTy => true
  | .union a b => canBeUndef a || canBeUndef b
  | _ => false

/-- Mark a field binding optional, leaving its `readonly` modifier and its
declared value type unchanged. -/
def markOpt (f : FieldV) : FieldV := (true, f.2.1, f.2.2)

/-- Modelled from the spec: `PickAsOptional` (imported from `./pick`, a file
not in the repository snapshot) picks the given subset of the record's keys
and marks each picked binding optional, leaving value types unchanged. -/
def pickAsOptional (r : Rec) (ks : List String) : Rec :=
  (r.filter (fun f => decide (f.1 ∈ ks))).map (fun f => (f.1, markOpt f.2))

/-- The key-selection step of `PickLikelyUndefPropsAsOptional`:
`ValueOf<{ [TKey in keyof TObj]-?: If<(CanBeUndef<TObj[TKey]>), TKey, never>; }>`,
i.e. the keys whose indexed-access type admits `undefined` (`never` members
drop out of the union of keys). -/
def likelyUndefKeys (r : Rec) : List String :=
  (r.filter (fun f => canBeUndef (idxV f.2))).map (·.1)

/-- `PickLikelyUndefPropsAsOptional<TObj> = PickAsOptional<TObj, ...>` at the
key set selected by `likelyUndefKeys`. -/
def pickLikelyUndefPropsAsOptional (r : Rec) : Rec :=
  pickAsOptional r (likelyUndefKeys r)

/-- `OptionalLikelyUndefProps<TObj> = Merge<TObj, PickLikelyUndefPropsAsOptional<TObj>>`. -/
def optionalLikelyUndefProps (r : Rec) : Rec :=
  merge r (pickLikelyUndefPropsAsOptional r)

end TsTypes

namespace TsTypes

/-! ### Lookup lemmas -/

theorem lookupF_append (k : String) (r1 r2 : Rec) :
    lookupF k (r1 ++ r2) =
      match lookupF k r1 with
      | some f => some f
      | none => lookupF k r2 := by
  induction r1 with
  | nil => simp [lookupF]
  | cons hd tl ih =>
    obtain ⟨k', f⟩ := hd
    by_cases hk : k = k' <;> simp [lookupF, hk, ih]

theorem lookupF_filterKey (q : String → Bool) (k : String) (r : Rec) :
    lookupF k (r.filter (fun f => q f.1)) = if q k then lookupF k r else none := by
  induction r with
  | nil => simp [lookupF]
  | cons hd tl ih =>
    obtain ⟨k', f⟩ := hd
    by_cases hq : q k'
    · by_cases hk : k = k' <;> simp [List.filter_cons, lookupF, hq, hk, ih]
    · by_cases hk : k = k'
      · subst hk
        simp [List.filter_cons, lookupF, hq, ih]
      · simp [List.filter_cons, lookupF, hq, hk, ih]

theorem lookupF_filterMapKey (q : String → Bool) (g : FieldV → FieldV) (k : String) (r : Rec) :
    lookupF k ((r.filter (fun f => q f.1)).map (fun f => (f.1, g f.2)))
      = if q k then (lookupF k r).map g else none := by
  induction r with
  | nil => simp [lookupF]
  | cons hd tl ih =>
    obtain ⟨k', f⟩ := hd
    by_cases hq : q k'
    · by_cases hk : k = k' <;> simp [List.filter_cons, lookupF, hq, hk, ih]
    · by_cases hk : k = k'
      · subst hk
        simp [List.filter_cons, lookupF, hq, ih]
      · simp [List.filter_cons, lookupF, hq, hk, ih]

theorem lookupF_objT (v : Ty) (ks : List String) (k : String) :
    lookupF k (objT v ks) = if k ∈ ks then some (false, false, v) else none := by
  induction ks with
  | nil => simp [objT, lookupF]
  | cons k' tl ih =>
    by_cases hk : k = k'
    · subst hk
      simp [objT, lookupF]
    · have h1 : lookupF k (objT v (k' :: tl)) = lookupF k (objT v tl) := by
        simp [objT, lookupF, hk]
      rw [h1, ih]
      simp [hk]

theorem keysOf_objT (v : Ty) (ks : List String) : keysOf (objT v ks) = ks := by
  induction ks with
  | nil => rfl
  | cons k tl ih =>
    simp only [keysOf, objT, List.map_cons] at ih ⊢
    rw [ih]

theorem lookupF_eq_none_iff (k : String) (r : Rec) :
    lookupF k r = none ↔ k ∉ keysOf r := by
  induction r with
  | nil => simp [lookupF, keysOf]
  | cons hd tl ih =>
    obtain ⟨k', f⟩ := hd
    by_cases hk : k = k'
    · subst hk
      simp [lookupF, keysOf]
    · simp [lookupF, keysOf, hk, ih]

theorem mem_keysOf_of_lookupF (k : String) (r : Rec) (f : FieldV)
    (h : lookupF k r = some f) : k ∈ keysOf r := by
  by_contra hmem
  rw [← lookupF_eq_none_iff] at hmem
  rw [h] at hmem
  cases hmem

theorem mem_of_lookupF_eq_some (k : String) (r : Rec) (f : FieldV)
    (h : lookupF k r = some f) : (k, f) ∈ r := by
  induction r with
  | nil => cases h
  | cons hd tl ih =>
    obtain ⟨k', f'⟩ := hd
    by_cases hk : k = k'
    · subst hk
      simp [lookupF] at h
      subst h
      exact List.mem_cons_self _ _
    · simp [lookupF, hk] at h
      exact List.mem_cons_of_mem _ (ih h)

theorem lookupF_eq_some_of_mem_nodup (k : String) (r : Rec) (f : FieldV)
    (hnd : (keysOf r).Nodup) (hm : (k, f) ∈ r) : lookupF k r = some f := by
  induction r with
  | nil => cases hm
  | cons hd tl ih =>
    obtain ⟨k', f'⟩ := hd
    rw [show keysOf ((k', f') :: tl) = k' :: keysOf tl from rfl, List.nodup_cons] at hnd
    rcases List.mem_cons.mp hm with heq | htl
    · cases heq
      simp [lookupF]
    · have hk : k ≠ k' := by
        intro hkk
        subst hkk
        exact hnd.1 (List.mem_map_of_mem (·.1) htl)
      simp only [lookupF, if_neg hk]
      exact ih hnd.2 htl

end TsTypes

namespace TsTypes

/-! ### Merge and key-set lemmas -/

theorem mem_keysOf_iff (k : String) (r : Rec) :
    k ∈ keysOf r ↔ lookupF k r ≠ none := by
  rw [Ne, lookupF_eq_none_iff, not_not]

theorem lookupF_merge (r1 r2 : Rec) (k : String) :
    lookupF k (merge r1 r2) = if k ∈ keysOf r2 then lookupF k r2 else lookupF k r1 := by
  rw [show merge r1 r2 = r1.filter (fun f => !(decide (f.1 ∈ keysOf r2))) ++ r2 from rfl]
  rw [lookupF_append, lookupF_filterKey (fun x => !(decide (x ∈ keysOf r2)))]
  by_cases hm : k ∈ keysOf r2
  · simp [hm]
  · have h2 : lookupF k r2 = none := (lookupF_eq_none_iff k r2).mpr hm
    cases hr : lookupF k r1 <;> simp [hm, h2, hr]

theorem mem_keysOf_merge (r1 r2 : Rec) (k : String) :
    k ∈ keysOf (merge r1 r2) ↔ k ∈ keysOf r1 ∨ k ∈ keysOf r2 := by
  rw [mem_keysOf_iff k (merge r1 r2), mem_keysOf_iff k r1, lookupF_merge]
  by_cases hm : k ∈ keysOf r2
  · simp [hm, (mem_keysOf_iff k r2).mp hm]
  · simp [hm]

/-! ### DeepMapValues lemmas -/

theorem foldl_addMember_of_mem (X : Ty) (n : Nat) :
    ∀ acc : List Ty, X ∈ acc → List.foldl addMember acc (List.replicate n X) = acc := by
  induction n with
  | zero => intro acc _; rfl
  | succ m ih =>
    intro acc h
    rw [List.replicate_succ, List.foldl_cons, show addMember acc X = acc from by simp [addMember, h]]
    exact ih acc h

theorem unionMembers_replicate_succ (n : Nat) (X : Ty) :
    unionMembers (List.replicate (n + 1) X) = [X] := by
  rw [unionMembers, List.replicate_succ, List.foldl_cons,
    show addMember [] X = [X] from by simp [addMember]]
  exact foldl_addMember_of_mem X n [X] (List.mem_singleton.mpr rfl)

theorem map_idxV_objT (X : Ty) (ks : List String) :
    (objT X ks).map (fun f => idxV f.2) = List.replicate ks.length X := by
  induction ks with
  | nil => rfl
  | cons k tl ih =>
    simp only [objT, List.map_cons, List.length_cons, List.replicate_succ] at ih ⊢
    rw [ih, show idxV (false, false, X) = X from rfl]

end TsTypes

namespace TsTypes

/-! ### `OptionalLikelyUndefProps` lemmas -/

theorem lookupF_pickAsOptional (r : Rec) (ks : List String) (k : String) :
    lookupF k (pickAsOptional r ks) =
      if k ∈ ks then (lookupF k r).map markOpt else none := by
  rw [show pickAsOptional r ks
      = (r.filter (fun f => decide (f.1 ∈ ks))).map (fun f => (f.1, markOpt f.2)) from rfl]
  rw [lookupF_filterMapKey (fun x => decide (x ∈ ks)) markOpt]
  by_cases hk : k ∈ ks <;> simp [hk]

theorem mem_keysOf_pickAsOptional (r : Rec) (ks : List String) (k : String) :
    k ∈ keysOf (pickAsOptional r ks) ↔ k ∈ keysOf r ∧ k ∈ ks := by
  rw [mem_keysOf_iff, lookupF_pickAsOptional]
  by_cases hk : k ∈ ks
  · simp [hk, mem_keysOf_iff]
  · simp [hk]

theorem mem_likelyUndefKeys (r : Rec) (k : String) :
    k ∈ likelyUndefKeys r ↔ ∃ f, (k, f) ∈ r ∧ canBeUndef (idxV f) = true := by
  simp only [likelyUndefKeys, List.mem_map, List.mem_filter]
  constructor
  · rintro ⟨⟨k', f⟩, ⟨hf, hc⟩, rfl⟩
    exact ⟨f, hf, hc⟩
  · rintro ⟨f, hf, hc⟩
    exact ⟨⟨k, f⟩, ⟨hf, hc⟩, rfl⟩

theorem lookupF_optionalLikelyUndefProps (r : Rec) (hnd : (keysOf r).Nodup) (k : String) :
    lookupF k (optionalLikelyUndefProps r)
      = (lookupF k r).map (fun f => if canBeUndef (idxV f) then markOpt f else f) := by
  rw [show optionalLikelyUndefProps r = merge r (pickAsOptional r (likelyUndefKeys r)) from rfl]
  rw [lookupF_merge]
  cases hr : lookupF k r with
  | none =>
    have hk : k ∉ keysOf r := (lookupF_eq_none_iff k r).mp hr
    have hk2 : k ∉ keysOf (pickAsOptional r (likelyUndefKeys r)) := by
      rw [mem_keysOf_pickAsOptional]
      rintro ⟨h1, _⟩
      exact hk h1
    rw [if_neg hk2]
    rfl
  | some f =>
    by_cases hc : canBeUndef (idxV f)
    · have hsel : k ∈ likelyUndefKeys r :=
        (mem_likelyUndefKeys r k).mpr ⟨f, mem_of_lookupF_eq_some k r f hr, hc⟩
      have hk2 : k ∈ keysOf (pickAsOptional r (likelyUndefKeys r)) := by
        rw [mem_keysOf_pickAsOptional]
        exact ⟨mem_keysOf_of_lookupF k r f hr, hsel⟩
      rw [if_pos hk2, lookupF_pickAsOptional, if_pos hsel, hr]
      simp [hc]
    · have hsel : k ∉ likelyUndefKeys r := by
        intro hmem
        rcases (mem_likelyUndefKeys r k).mp hmem with ⟨f', hf', hc'⟩
        have heq := lookupF_eq_some_of_mem_nodup k r f' hnd hf'
        rw [hr] at heq
        cases heq
        exact hc hc'
      have hk2 : k ∉ keysOf (pickAsOptional r (likelyUndefKeys r)) := by
        rw [mem_keysOf_pickAsOptional]
        rintro ⟨_, h2⟩
        exact hsel h2
      rw [if_neg hk2]
      simp [hc]

end TsTypes

namespace TsTypes

/-! ### `RemoveKeys` composition lemma -/

theorem removeKeys_removeKeys_aux (r : Rec) (k1 k2 : List String) :
    removeKeys (removeKeys r k1) k2 = removeKeys r (k1 ++ k2) := by
  induction r with
  | nil => rfl
  | cons hd tl ih =>
    obtain ⟨k', f⟩ := hd
    simp only [removeKeys, List.filter_cons] at ih ⊢
    by_cases hm1 : k' ∈ k1
    · simp [hm1, List.mem_append, ih]
    · by_cases hm2 : k' ∈ k2
      · simp [hm1, hm2, List.mem_append, ih]
      · simp [hm1, hm2, List.mem_append, ih]

end TsTypes

namespace TsTypes

/-! ### Claim theorems -/

/-- C1: for every pair of record types, `Merge(R1, R2)` binds exactly the keys of
`R1` together with those of `R2`; a key bound by `R2` gets `R2`'s binding
(right-biased override), and a key of `R1` that `R2` does not bind keeps its
binding from `R1`. -/
theorem merge_right_biased (r1 r2 : Rec) (k : String) :
    (lookupF k (merge r1 r2) = if k ∈ keysOf r2 then lookupF k r2 else lookupF k r1)
    ∧ (k ∈ keysOf (merge r1 r2) ↔ k ∈ keysOf r1 ∨ k ∈ keysOf r2) :=
  ⟨lookupF_merge r1 r2 k, mem_keysOf_merge r1 r2 k⟩

/-- C2: `OptionalLikelyUndefProps` marks as optional exactly the keys whose
bound value type admits `undefined` (including `unknown` and `any`), leaving
the other keys' bindings untouched and every value type (and `readonly`
modifier) unchanged. -/
theorem optionalLikelyUndefProps_marks_undef (r : Rec) (hnd : (keysOf r).Nodup) (k : String) :
    lookupF k (optionalLikelyUndefProps r)
      = (lookupF k r).map (fun f => if canBeUndef (idxV f) then markOpt f else f) :=
  lookupF_optionalLikelyUndefProps r hnd k

/-- C2 witness: `OptionalLikelyUndefProps({ a: string, b: string|undefined })`
denotes `{ a: string, b?: string|undefined }`. -/
theorem optionalLikelyUndefProps_marks_undef_witness :
    lookupF "b" (optionalLikelyUndefProps
        [("a", (false, false, Ty.str)), ("b", (false, false, Ty.union Ty.str Ty.undef))])
      = some (true, false, Ty.union Ty.str Ty.undef)
    ∧ lookupF "a" (optionalLikelyUndefProps
        [("a", (false, false, Ty.str)), ("b", (false, false, Ty.union Ty.str Ty.undef))])
      = some (false, false, Ty.str) :=
  ⟨(optionalLikelyUndefProps_marks_undef
      [("a", (false, false, Ty.str)), ("b", (false, false, Ty.union Ty.str Ty.undef))]
      (by decide) "b").trans (by decide),
   (optionalLikelyUndefProps_marks_undef
      [("a", (false, false, Ty.str)), ("b", (false, false, Ty.union Ty.str Ty.undef))]
      (by decide) "a").trans (by decide)⟩

/-- C3 counterexample: renaming the optional key `a` of `{ a?: string }` to
itself does not denote the same type: the resulting binding is required (and
its value type is `string | undefined`), so the claimed identity with
modifier preservation fails. -/
theorem renameKey_self_optional_ne :
    "a" ∈ keysOf [("a", (true, false, Ty.str))]
    ∧ lookupF "a" (renameKey [("a", (true, false, Ty.str))] "a" "a")
      ≠ lookupF "a" [("a", (true, false, Ty.str))] := by
  decide

/-- C3 (amended): for every key `K` whose binding in `R` is required and
mutable, `RenameKey(R, K, K)` denotes the same type as `R` (pointwise equal
bindings at every key); for an optional or readonly `K` the identity fails,
since the rebuilt binding is always required and mutable. -/
theorem renameKey_self_id (r : Rec) (K : String) (t : Ty)
    (hK : lookupF K r = some (false, false, t)) (k : String) :
    lookupF k (renameKey r K K) = lookupF k r := by
  have hidx : idxAccess r K = t := by simp [idxAccess, hK, idxV]
  rw [show renameKey r K K = merge (removeKeys r [K]) (objT (idxAccess r K) [K]) from rfl,
    lookupF_merge, keysOf_objT]
  by_cases hk : k = K
  · subst hk
    rw [if_pos (List.mem_singleton.mpr rfl), lookupF_objT,
      if_pos (List.mem_singleton.mpr rfl), hidx, hK]
  · have hk' : k ∉ ([K] : List String) := by simp [hk]
    rw [if_neg hk',
      show removeKeys r [K] = r.filter (fun g => !(decide (g.1 ∈ ([K] : List String)))) from rfl,
      lookupF_filterKey (fun x => !(decide (x ∈ ([K] : List String))))]
    simp [hk]

/-- C3 witness: renaming the required mutable key `a` of
`{ a: string, b?: readonly-free num }` to itself leaves every binding as it was. -/
theorem renameKey_self_id_witness :
    lookupF "b" (renameKey [("a", (false, false, Ty.str)), ("b", (true, true, Ty.num))] "a" "a")
      = some (true, true, Ty.num)
    ∧ lookupF "a" (renameKey [("a", (false, false, Ty.str)), ("b", (true, true, Ty.num))] "a" "a")
      = some (false, false, Ty.str) :=
  ⟨(renameKey_self_id [("a", (false, false, Ty.str)), ("b", (true, true, Ty.num))] "a" Ty.str
      (by decide) "b").trans (by decide),
   (renameKey_self_id [("a", (false, false, Ty.str)), ("b", (true, true, Ty.num))] "a" Ty.str
      (by decide) "a").trans (by decide)⟩

/-- C4: `ReplaceValues(R, Keys, V)` rebinds every key in `Keys` to `V` and
leaves every other key of `R` exactly its binding from `R`. -/
theorem replaceValues_frame (r : Rec) (ks : List String) (v : Ty)
    (_hsub : ∀ k ∈ ks, k ∈ keysOf r) (k : String) :
    lookupF k (replaceValues r ks v)
      = if k ∈ ks then some (false, false, v) else lookupF k r := by
  rw [show replaceValues r ks v = merge r (objT v ks) from rfl, lookupF_merge, keysOf_objT,
    lookupF_objT]
  by_cases hk : k ∈ ks <;> simp [hk]

/-- C4 witness: replacing the value at `a` of `{ readonly a?: string, b: num }`
rebinds `a` to `unknown` and leaves `b` untouched. -/
theorem replaceValues_frame_witness :
    lookupF "a" (replaceValues [("a", (true, true, Ty.str)), ("b", (false, false, Ty.num))]
        ["a"] Ty.unknown)
      = some (false, false, Ty.unknown)
    ∧ lookupF "b" (replaceValues [("a", (true, true, Ty.str)), ("b", (false, false, Ty.num))]
        ["a"] Ty.unknown)
      = some (false, false, Ty.num) :=
  ⟨(replaceValues_frame [("a", (true, true, Ty.str)), ("b", (false, false, Ty.num))]
      ["a"] Ty.unknown (by decide) "a").trans (by decide),
   (replaceValues_frame [("a", (true, true, Ty.str)), ("b", (false, false, Ty.num))]
      ["a"] Ty.unknown (by decide) "b").trans (by decide)⟩

/-- C6: `RenameKey(R, OldKey, NewKey)` binds `NewKey` to the indexed access
`R[OldKey]` (as a fresh binding), removes `OldKey`, and leaves every other key
its binding from `R`; when `NewKey` collides with an existing key, the renamed
binding takes precedence. -/
theorem renameKey_char (r : Rec) (oldK newK : String) (f : FieldV)
    (hOld : lookupF oldK r = some f) (k : String) :
    lookupF k (renameKey r oldK newK)
      = if k = newK then some (false, false, idxV f)
        else if k = oldK then none
        else lookupF k r := by
  have hidx : idxAccess r oldK = idxV f := by simp [idxAccess, hOld]
  rw [show renameKey r oldK newK
      = merge (removeKeys r [oldK]) (objT (idxAccess r oldK) [newK]) from rfl,
    lookupF_merge, keysOf_objT]
  by_cases hk : k = newK
  · subst hk
    rw [if_pos (List.mem_singleton.mpr rfl), lookupF_objT,
      if_pos (List.mem_singleton.mpr rfl), hidx]
    simp
  · have hk' : k ∉ ([newK] : List String) := by simp [hk]
    rw [if_neg hk',
      show removeKeys r [oldK]
        = r.filter (fun g => !(decide (g.1 ∈ ([oldK] : List String)))) from rfl,
      lookupF_filterKey (fun x => !(decide (x ∈ ([oldK] : List String))))]
    by_cases hko : k = oldK
    · subst hko
      simp [hk]
    · simp [hk, hko]

/-- C6 witness: renaming `a` to the already-existing key `b` removes `a` and
overrides `b` with `a`'s value type. -/
theorem renameKey_char_witness :
    lookupF "b" (renameKey [("a", (false, false, Ty.str)), ("b", (true, true, Ty.num))] "a" "b")
      = some (false, false, Ty.str)
    ∧ lookupF "a" (renameKey [("a", (false, false, Ty.str)), ("b", (true, true, Ty.num))] "a" "b")
      = none :=
  ⟨(renameKey_char [("a", (false, false, Ty.str)), ("b", (true, true, Ty.num))] "a" "b"
      (false, false, Ty.str) (by decide) "b").trans (by decide),
   (renameKey_char [("a", (false, false, Ty.str)), ("b", (true, true, Ty.num))] "a" "b"
      (false, false, Ty.str) (by decide) "a").trans (by decide)⟩

/-- C7: for a record with at least one key, `ValueOf(MapValues(R, X))` denotes
exactly `X` (the union of identically-`X` members deduplicates to `X`). -/
theorem valueOf_mapValues (r : Rec) (X : Ty) (h : r ≠ []) :
    valueOf (mapValues r X) = X := by
  rw [show valueOf (mapValues r X)
      = mkUnion (unionMembers ((mapValues r X).map (fun f => idxV f.2))) from rfl,
    show mapValues r X = objT X (keysOf r) from rfl, map_idxV_objT]
  cases r with
  | nil => exact absurd rfl h
  | cons hd tl =>
    rw [show (keysOf (hd :: tl)).length = tl.length + 1 from by simp [keysOf],
      unionMembers_replicate_succ]
    rfl

/-- C7 witness: `ValueOf(MapValues({ a?: string, b: string }, num))` is `num`. -/
theorem valueOf_mapValues_witness :
    valueOf (mapValues [("a", (true, false, Ty.str)), ("b", (false, false, Ty.str))] Ty.num)
      = Ty.num :=
  valueOf_mapValues [("a", (true, false, Ty.str)), ("b", (false, false, Ty.str))] Ty.num
    (by decide)

/-- C8: for disjoint key subsets of a record's keys, removing them one set at
a time is the same as removing their union at once. -/
theorem removeKeys_union (r : Rec) (k1 k2 : List String)
    (_h1 : ∀ k ∈ k1, k ∈ keysOf r) (_h2 : ∀ k ∈ k2, k ∈ keysOf r)
    (_hd : ∀ k ∈ k1, k ∉ k2) :
    removeKeys (removeKeys r k1) k2 = removeKeys r (k1 ++ k2) :=
  removeKeys_removeKeys_aux r k1 k2

/-- C8 witness: removing `a` then `b` from a three-key record equals removing
`a ∪ b` at once. -/
theorem removeKeys_union_witness :
    removeKeys (removeKeys
        [("a", (false, false, Ty.str)), ("b", (true, false, Ty.num)),
         ("c", (false, true, Ty.unknown))] ["a"]) ["b"]
      = [("c", (false, true, Ty.unknown))] :=
  (removeKeys_union
      [("a", (false, false, Ty.str)), ("b", (true, false, Ty.num)),
       ("c", (false, true, Ty.unknown))] ["a"] ["b"]
      (by decide) (by decide) (by decide)).trans (by decide)

/-- C9: every key of `MapValues(R, X)` is a required, mutable binding of `X`:
optional/readonly modifiers of `R` are absent because the result is a fresh
`Record` over `keyof R`. -/
theorem mapValues_required_mutable (r : Rec) (X : Ty) (k : String) (hk : k ∈ keysOf r) :
    lookupF k (mapValues r X) = some (false, false, X)
    ∧ keysOf (mapValues r X) = keysOf r := by
  constructor
  · rw [show mapValues r X = objT X (keysOf r) from rfl, lookupF_objT, if_pos hk]
  · rw [show mapValues r X = objT X (keysOf r) from rfl, keysOf_objT]

/-- C9 witness: the optional readonly key `a` of the source becomes a plain
required mutable binding in `MapValues`. -/
theorem mapValues_required_mutable_witness :
    lookupF "a" (mapValues [("a", (true, true, Ty.str))] Ty.num) = some (false, false, Ty.num)
    ∧ keysOf (mapValues [("a", (true, true, Ty.str))] Ty.num) = ["a"] :=
  ⟨(mapValues_required_mutable [("a", (true, true, Ty.str))] Ty.num "a" (by decide)).1,
   ((mapValues_required_mutable [("a", (true, true, Ty.str))] Ty.num "a" (by decide)).2).trans
     (by decide)⟩

/-- C10: the bindings freshly created by `ReplaceValues` (keys in `Keys`) and
by `RenameKey` (the `NewKey` binding) are always required and mutable,
whatever the source key's modifiers were. -/
theorem fresh_bindings_plain :
    (∀ (r : Rec) (ks : List String) (v : Ty) (k : String), k ∈ ks →
        lookupF k (replaceValues r ks v) = some (false, false, v))
    ∧ ∀ (r : Rec) (oldK newK : String),
        lookupF newK (renameKey r oldK newK) = some (false, false, idxAccess r oldK) := by
  constructor
  · intro r ks v k hk
    rw [show replaceValues r ks v = merge r (objT v ks) from rfl, lookupF_merge, keysOf_objT,
      if_pos hk, lookupF_objT, if_pos hk]
  · intro r oldK newK
    rw [show renameKey r oldK newK
        = merge (removeKeys r [oldK]) (objT (idxAccess r oldK) [newK]) from rfl,
      lookupF_merge, keysOf_objT, if_pos (List.mem_singleton.mpr rfl), lookupF_objT,
      if_pos (List.mem_singleton.mpr rfl)]

/-- C10 witness: replacing or renaming an optional readonly source key yields
a required mutable binding. -/
theorem fresh_bindings_plain_witness :
    lookupF "a" (replaceValues [("a", (true, true, Ty.str))] ["a"] Ty.num)
      = some (false, false, Ty.num)
    ∧ lookupF "b" (renameKey [("a", (true, true, Ty.str))] "a" "b")
      = some (false, false, Ty.union Ty.str Ty.undef) :=
  ⟨fresh_bindings_plain.1 [("a", (true, true, Ty.str))] ["a"] Ty.num "a" (by decide),
   (fresh_bindings_plain.2 [("a", (true, true, Ty.str))] "a" "b").trans (by decide)⟩

end TsTypes
